import Mathlib

/-!
Shallow embedding of the release-please manifest orchestrator and the
node-workspace dependency-propagation plugin, together with proofs of the
behavioural properties stated about them.

The embedding covers:
* the semantic-version patch increment used by the propagator
  (the `semver.inc(v, 'patch')` call);
* `NodeWorkspaceDependencyUpdates.runLernaVersion` and
  `NodeWorkspaceDependencyUpdates.updatePkgsWithPRData`;
* `Manifest.getPackagesToRelease` (version resolution with tip fallback);
* `Manifest.validate` and the validation guards of `Manifest.pullRequest`
  and `Manifest.githubRelease`;
* the release-creation loop of `Manifest.githubRelease`.
-/

/-- Whether the first list is an initial segment of the second (used to
model `String.startsWith` / `String.endsWith` executably). -/
def leadsWith : List Char → List Char → Bool
  | [], _ => true
  | _ :: _, [] => false
  | p :: ps, x :: xs => p == x && leadsWith ps xs

def strLeads (p s : String) : Bool := leadsWith p.data s.data

def strEnds (p s : String) : Bool := leadsWith p.data.reverse s.data.reverse

/-- Split a character list on a separator character (the behaviour of
`String.splitOn` with a one-character separator). -/
def splitOnChar (c : Char) : List Char → List (List Char)
  | [] => [[]]
  | x :: xs =>
    match splitOnChar c xs with
    | [] => [[x]]
    | h :: t => if x == c then [] :: h :: t else (x :: h) :: t

def digitsToNat (l : List Char) : Nat :=
  l.foldl (fun n c => 10 * n + (c.toNat - 48)) 0

/-- Numeric semantic-version identifier: decimal digits only, no leading
zeros.  Models the numeric components accepted by the external `semver`
library used by the propagator. -/
def parseNumId (l : List Char) : Option Nat :=
  if l.isEmpty then none
  else if !(l.all fun c => c.isDigit) then none
  else
    match l with
    | '0' :: _ :: _ => none
    | _ => some (digitsToNat l)

/-- Parse a `MAJOR.MINOR.PATCH` version core. -/
def parseCore (l : List Char) : Option (Nat × Nat × Nat) :=
  match splitOnChar '.' l with
  | [a, b, c] =>
    match parseNumId a, parseNumId b, parseNumId c with
    | some x, some y, some z => some (x, y, z)
    | _, _, _ => none
  | _ => none

/-- Split a version at the first dash into its core and an optional
pre-release part. -/
def breakAtDash : List Char → List Char × Option (List Char)
  | [] => ([], none)
  | x :: xs =>
    if x == '-' then ([], some xs)
    else
      match breakAtDash xs with
      | (core, rest) => (x :: core, rest)

def renderCore (x y z : Nat) : String :=
  toString x ++ "." ++ toString y ++ "." ++ toString z

/-- Model of `semver.inc(version, 'patch')` (used at
src/unnamed/part_000:106): `none` when the version string is not a parsable
semantic version; a version carrying a pre-release tag has the tag dropped
without bumping the patch component; otherwise the patch component is
incremented. -/
def incPatch (s : String) : Option String :=
  match breakAtDash s.data with
  | (core, none) =>
    match parseCore core with
    | some (x, y, z) => some (renderCore x y (z + 1))
    | none => none
  | (core, some p) =>
    if p.isEmpty then none
    else
      match parseCore core with
      | some (x, y, z) => some (renderCore x y z)
      | none => none

/-- A node package descriptor as used by the workspace plugin: `name`,
`version` and the `dependencies` map (an association list standing for the
JSON object). -/
structure PackageJson where
  name : String
  version : String
  dependencies : List (String × String)
deriving DecidableEq, Repr

/-- Model of the npm-package-arg resolution type of a dependency spec, at the
granularity the plugin consumes it (`resolved.type !== 'directory'`,
src/unnamed/part_000:126): `file:` specs and filesystem paths resolve to
`directory`; everything else is treated as a registered range here. -/
def isDirectorySpec (spec : String) : Bool :=
  strLeads "file:" spec || strLeads "./" spec || strLeads "../" spec ||
    strLeads "/" spec

/-- Names of all packages in the workspace graph.  A dependency edge is
local exactly when its name is one of these (the spec's definition of a
local dependency: an edge pointing at another package inside the same
repository). -/
def graphNames (allPkgs : List (String × PackageJson)) : List String :=
  allPkgs.map fun q => q.2.name

/-- Fuel-indexed dependents computation: `reachesUpd rp allPkgs n q` holds
when package `q` is directly updated (its location is a key of
`rpUpdatedPkgs`) or reaches a directly updated package through at most `n`
local dependency edges.  With fuel `allPkgs.length` this is the set computed
by `collectPackages` at src/unnamed/part_000:86-88: the directly updated
packages together with all of their transitive local dependents. -/
def reachesUpd (rp : List String) (allPkgs : List (String × PackageJson)) :
    Nat → String × PackageJson → Bool
  | 0, q => rp.contains q.1
  | n + 1, q =>
    rp.contains q.1 ||
      q.2.dependencies.any fun d =>
        allPkgs.any fun q2 => q2.2.name == d.1 && reachesUpd rp allPkgs n q2

/-- The `updatesWithDependents` collection (src/unnamed/part_000:86-88). -/
def updatesWithDependents (rp : List String)
    (allPkgs : List (String × PackageJson)) : List (String × PackageJson) :=
  allPkgs.filter (reachesUpd rp allPkgs allPkgs.length)

/-- The `updatesVersions` map (src/unnamed/part_000:97-117): a directly
updated package keeps the version already present in its descriptor; a
dependent gets a patch increment of its previous version; a dependent whose
version does not parse produces no entry. -/
def updatesVersions (rp : List String) (ups : List (String × PackageJson)) :
    List (String × String) :=
  ups.filterMap fun q =>
    if rp.contains q.1 then some (q.2.name, q.2.version)
    else (incPatch q.2.version).map fun v => (q.2.name, v)

/-- The `invalidVersions` set (src/unnamed/part_000:98-113): names of
dependents whose previous version fails to parse. -/
def invalidVersions (rp : List String) (ups : List (String × PackageJson)) :
    List String :=
  ups.filterMap fun q =>
    if rp.contains q.1 then none
    else
      match incPatch q.2.version with
      | none => some q.2.name
      | some _ => none

/-- The `runner` callback (src/unnamed/part_000:121-131): set the package
version from `updatesVersions`, then rewrite every local dependency edge
whose target has an entry in `updatesVersions` and whose resolved reference
is not of `directory` type to a caret constraint against the target's new
version (`updateLocalDependency(resolved, depVersion, '^')`).  The `none`
fallback on the version lookup is unreachable for the packages the runner is
invoked on, which all carry an entry. -/
def runnerPkg (allPkgs : List (String × PackageJson))
    (uv : List (String × String)) (p : PackageJson) : PackageJson :=
  { name := p.name
    version :=
      match uv.lookup p.name with
      | some v => v
      | none => p.version
    dependencies := p.dependencies.map fun d =>
      if (graphNames allPkgs).contains d.1 then
        match uv.lookup d.1 with
        | some dv => if isDirectorySpec d.2 then d else (d.1, "^" ++ dv)
        | none => d
      else d }

/-- `NodeWorkspaceDependencyUpdates.runLernaVersion`
(src/unnamed/part_000:70-146) as a pure function from the directly updated
package locations and all workspace package descriptors to the map from
location to rewritten descriptor.  The topological runner processes packages
strictly sequentially, but every processed package's result only reads the
precomputed `updatesVersions` map and its own descriptor, so the resulting
location-keyed map does not depend on the processing order. -/
def runLernaVersion (rp : List String)
    (allPkgs : List (String × PackageJson)) : List (String × PackageJson) :=
  let ups := updatesWithDependents rp allPkgs
  let uv := updatesVersions rp ups
  let inv := invalidVersions rp ups
  (ups.filter fun q => !inv.contains q.2.name).map
    fun q => (q.1, runnerPkg allPkgs uv q.2)

/-- Semantic transitive dependence on a directly updated package: the
package is itself directly updated, or a chain of local dependency edges
leads from it to a directly updated package of the workspace graph. -/
inductive ReachesUpdated (rp : List String)
    (allPkgs : List (String × PackageJson)) : String × PackageJson → Prop where
  | base (q : String × PackageJson) (hq : q ∈ allPkgs)
      (hr : rp.contains q.1 = true) : ReachesUpdated rp allPkgs q
  | step (q : String × PackageJson) (hq : q ∈ allPkgs) (d : String × String)
      (hd : d ∈ q.2.dependencies) (q2 : String × PackageJson)
      (hq2 : q2 ∈ allPkgs) (hname : q2.2.name = d.1)
      (h : ReachesUpdated rp allPkgs q2) : ReachesUpdated rp allPkgs q

/-- File content plus mode, as stored in `prData.changes`. -/
structure FileData where
  content : String
  mode : String
deriving DecidableEq, Repr

/-- The slice of a parsed package config consumed by the propagator's merge
step (`pkg.config`). -/
structure PkgConfig where
  path : String
  releaseType : String
  packageName : Option String
deriving DecidableEq, Repr

/-- Pending pull-request data of one package: target version and the map
from file path to new content. -/
structure PRData where
  version : String
  changes : List (String × FileData)
deriving DecidableEq, Repr

/-- The unit exchanged between the orchestrator and the plugins. -/
structure ManifestPackageWithPRData where
  config : PkgConfig
  prData : PRData
deriving DecidableEq, Repr

/-- JS `Map.set` / keyed-record assignment on an association list: replace
the value in place when the key exists, otherwise append. -/
def setAssoc {β : Type} (m : List (String × β)) (k : String) (v : β) :
    List (String × β) :=
  if m.any fun e => e.1 == k then
    m.map fun e => if e.1 == k then (k, v) else e
  else m ++ [(k, v)]

/-- JS `Map.delete` on an association list. -/
def eraseKey {β : Type} (m : List (String × β)) (k : String) :
    List (String × β) :=
  m.filter fun e => e.1 != k

/-- Modelled from the spec: serialization of a package descriptor.  The
`packageJsonStringify` helper (src/util/package-json-stringify) is not among
the sources; the spec treats the descriptor as an opaque JSON object with
name, version and dependency map, and any injective rendering serves the
properties proved here. -/
def packageJsonStringify (p : PackageJson) : String :=
  "\x7b\"name\":\"" ++ p.name ++ "\",\"version\":\"" ++ p.version ++
    "\",\"dependencies\":\x7b" ++
    String.intercalate ","
      (p.dependencies.map fun d => "\"" ++ d.1 ++ "\":\"" ++ d.2 ++ "\"") ++
    "\x7d\x7d"

/-- `filePath.replace(/\/package.json$/, '')` (src/unnamed/part_000:190). -/
def stripPkgJsonSuffix (s : String) : String :=
  if strEnds "/package.json" s then s.dropRight 13 else s

/-- `NodeWorkspaceDependencyUpdates.updatePkgsWithPRData`
(src/unnamed/part_000:148-194) as a pure function.  The first loop walks the
packages that already carry PR data: when the propagator produced an updated
descriptor for such a path, the existing file data is looked up and — via the
`??` fallback — kept as-is when present, with the freshly stringified
descriptor only used when no pending entry exists; the new version is always
recorded and the entry is removed from `allUpdated`.  The second loop
appends a synthesized entry for every remaining updated package that belongs
to the workspace configuration, and records its new version. -/
def updatePkgsWithPRData (parsedPackages : List PkgConfig)
    (pkgsWithPRData : List ManifestPackageWithPRData)
    (newManifestVersions : List (String × String))
    (allUpdated : List (String × PackageJson)) :
    List ManifestPackageWithPRData × List (String × String) :=
  let step1 := pkgsWithPRData.foldl
    (fun (acc : List ManifestPackageWithPRData × List (String × String) ×
        List (String × PackageJson)) pkg =>
      let (done, nmv, allUpd) := acc
      if pkg.config.releaseType != "node" then (done ++ [pkg], nmv, allUpd)
      else
        let filePath := pkg.config.path ++ "/package.json"
        match allUpd.lookup filePath with
        | none => (done ++ [pkg], nmv, allUpd)
        | some updated =>
          let content := packageJsonStringify updated
          let fileData :=
            (pkg.prData.changes.lookup filePath).getD ⟨content, "100644"⟩
          let pkg1 := { pkg with
            prData := { pkg.prData with
              changes := setAssoc pkg.prData.changes filePath fileData } }
          (done ++ [pkg1], setAssoc nmv pkg.config.path updated.version,
            eraseKey allUpd filePath))
    ([], newManifestVersions, allUpdated)
  let (done, nmv1, remaining) := step1
  remaining.foldl
    (fun (acc : List ManifestPackageWithPRData × List (String × String)) fu =>
      let (pkgs2, nmv2) := acc
      match parsedPackages.find? fun p => p.path ++ "/package.json" == fu.1 with
      | none => (pkgs2, nmv2)
      | some pcfg =>
        let content := packageJsonStringify fu.2
        (pkgs2 ++ [{ config := { pcfg with packageName := some fu.2.name }
                     prData := { version := fu.2.version
                                 changes := [(fu.1, ⟨content, "100644"⟩)] } }],
          setAssoc nmv2 (stripPkgJsonSuffix fu.1) fu.2.version))
    (done, nmv1)

/-- One release candidate as produced by `Manifest.getPackagesToRelease`,
restricted to the fields the resolution claims are about. -/
structure PackageReleaseData where
  path : String
  commits : List String
  lastVersion : Option String
deriving DecidableEq, Repr

/-- Truthiness of the manifest lookup (`if (!lastVersion)`,
src/unnamed/part_001:337): both an absent entry and an empty string are
falsy. -/
def versionFalsy (v : Option String) : Bool :=
  match v with
  | none => true
  | some s => s == ""

/-- Keyed-record assignment `packagesToRelease[pkg.path] = {...}`
(src/unnamed/part_001:357). -/
def setRecord (rel : List PackageReleaseData) (e : PackageReleaseData) :
    List PackageReleaseData :=
  if rel.any fun r => r.path == e.path then
    rel.map fun r => if r.path == e.path then e else r
  else rel ++ [e]

/-- One iteration of the main loop of `Manifest.getPackagesToRelease`
(src/unnamed/part_001:331-363), restricted to the version-resolution state:
a configured package path with no attributable commit is skipped; otherwise
a release entry is recorded under the path key, with `lastVersion` the
manifest lookup at the resolved reference, and the path is collected as
missing when that lookup is falsy.  Commit attribution (`CommitSplit`) is
passed in as `commitsPerPath`. -/
def gprStep (commitsPerPath : String → List String)
    (manifestAtSha : List (String × String))
    (acc : List PackageReleaseData × List String) (path : String) :
    List PackageReleaseData × List String :=
  if (commitsPerPath path).isEmpty then acc
  else
    (setRecord acc.1
      ⟨path, commitsPerPath path, manifestAtSha.lookup path⟩,
      if versionFalsy (manifestAtSha.lookup path) then acc.2 ++ [path]
      else acc.2)

/-- The main pass over all configured packages, producing the keyed release
record and the missing-version paths. -/
def gprMainPass (packages : List String)
    (commitsPerPath : String → List String)
    (manifestAtSha : List (String × String)) :
    List PackageReleaseData × List String :=
  packages.foldl (gprStep commitsPerPath manifestAtSha) ([], [])

/-- One iteration of the missing-path re-resolution loop
(src/unnamed/part_001:369-379): the entry recorded for the path has its
`lastVersion` overwritten with the lookup in the manifest at the live tip,
applied even when that lookup is itself absent. -/
def gprFixStep (manifestAtTip : List (String × String))
    (rel2 : List PackageReleaseData) (path : String) :
    List PackageReleaseData :=
  rel2.map fun r =>
    if r.path == path then { r with lastVersion := manifestAtTip.lookup path }
    else r

/-- `Manifest.getPackagesToRelease` (src/unnamed/part_001:317-382): the main
pass followed by the re-resolution of every missing path against the
manifest at the live tip. -/
def getPackagesToRelease (packages : List String)
    (commitsPerPath : String → List String)
    (manifestAtSha manifestAtTip : List (String × String)) :
    List PackageReleaseData :=
  (gprMainPass packages commitsPerPath manifestAtSha).2.foldl
    (gprFixStep manifestAtTip)
    (gprMainPass packages commitsPerPath manifestAtSha).1

/-- Minimal JSON value model for the configuration and manifest documents. -/
inductive JsonVal where
  | str (s : String)
  | num (n : Int)
  | jbool (b : Bool)
  | jnull
  | arr (elems : List JsonVal)
  | obj (fields : List (String × JsonVal))

/-- `typeof version === 'string'` (src/unnamed/part_001:439). -/
def isStrVal (v : JsonVal) : Bool :=
  match v with
  | .str _ => true
  | _ => false

/-- `validateJsonFile` (src/unnamed/part_001:384-409): a document is valid
only when it was fetched, parsed, and the parse produced a JSON object
(`obj.constructor.name === 'Object'`); a fetch or parse failure is modelled
by `none`. -/
def jsonFileValid (doc : Option JsonVal) : Bool :=
  match doc with
  | some (.obj _) => true
  | _ => false

/-- Config side of `Manifest.validate` (src/unnamed/part_001:411-426): the
config document must be a JSON object whose `packages` member has at least
one key.  `Object.keys` applied to a non-object `packages` value is modelled
as empty; no claim depends on that corner. -/
def validConfigB (config : Option JsonVal) : Bool :=
  jsonFileValid config &&
    match config with
    | some (.obj fields) =>
      match fields.lookup "packages" with
      | some (.obj pkgs) => !pkgs.isEmpty
      | _ => false
    | _ => false

/-- Manifest side of `Manifest.validate` (src/unnamed/part_001:428-448): the
manifest document must be a JSON object all of whose values are strings. -/
def validManifestB (man : Option JsonVal) : Bool :=
  jsonFileValid man &&
    match man with
    | some (.obj fields) => fields.all fun f => isStrVal f.2
    | _ => false

/-- `Manifest.validate` (src/unnamed/part_001:411-450). -/
def validateM (config man : Option JsonVal) : Bool :=
  validConfigB config && validManifestB man

/-- `Manifest.pullRequest` (src/unnamed/part_001:542-582): the validation
guard at lines 543-546 returns before any remote interaction.  `k` stands
for the remainder of the method after the guard; the `List String` component
collects the remote mutations performed. -/
def pullRequestRun (config man : Option JsonVal)
    (k : Unit → Option Nat × List String) : Option Nat × List String :=
  if validateM config man then k () else (none, [])

/-- A GitHub API error entry (`err.errors[i]`). -/
structure GHErrorItem where
  code : String
  field : String
deriving DecidableEq, Repr

/-- A GitHub API error (`err` in the catch at src/unnamed/part_001:655).  An
absent `errors` member is modelled by the empty list; both are falsy under
`err.errors?.length`. -/
structure GHError where
  status : Nat
  errors : List GHErrorItem
  message : String
deriving DecidableEq, Repr

/-- Outcome of `releaser.createRelease(...)` for one package: a resolved
response (possibly `undefined`, modelled by `ok none`) or a thrown error. -/
inductive CreateOutcome where
  | ok (release : Option Nat)
  | err (e : GHError)
deriving DecidableEq, Repr

/-- One release candidate entering the release-creation loop, bundled with
the outcome the remote API would give for it: `path` and `lastVersion` from
the resolver, `name` as resolved by `releasePR.getPackageName()`. -/
structure RelPkg where
  path : String
  name : String
  lastVersion : Option String
  outcome : CreateOutcome
deriving DecidableEq, Repr

/-- Mutable state threaded through the release-creation loop: the
`allReleasesCreated` flag, the `releases` record, and the comments posted on
the pull request. -/
structure RelState where
  allReleasesCreated : Bool
  releases : List (String × Option Nat)
  comments : List String
deriving DecidableEq, Repr

def failureComment (name : String) : String :=
  ":robot: Failed to create release for " ++ name ++ " :cloud:"

def successComment (name : String) : String :=
  ":robot: Release for " ++ name ++ " is at <html_url> :sunflower:"

/-- The catch condition `err.status === 422 && err.errors?.length`
(src/unnamed/part_001:673).  Any error satisfying it skips the
generic-failure branch; the nested `already_exists`/`tag_name` test at lines
674-682 only selects the success log message and has no further effect. -/
def isSkippableErr (e : GHError) : Bool :=
  e.status == 422 && !e.errors.isEmpty

/-- One iteration of the release-creation loop
(src/unnamed/part_001:627-712) for a single candidate.  A falsy
`lastVersion` records an undefined release and moves on; a thrown error
either skips (422 with a non-empty error list) or clears the
`allReleasesCreated` flag and posts a failure comment; a resolved release
posts a success comment and records the response; a resolved `undefined`
records nothing. -/
def githubReleaseStep (st : RelState) (pkg : RelPkg) : RelState :=
  match pkg.lastVersion with
  | none => { st with releases := st.releases ++ [(pkg.path, none)] }
  | some v =>
    if v = "" then { st with releases := st.releases ++ [(pkg.path, none)] }
    else
      match pkg.outcome with
      | .err e =>
        if isSkippableErr e then
          { st with releases := st.releases ++ [(pkg.path, none)] }
        else
          { allReleasesCreated := false
            comments := st.comments ++ [failureComment pkg.name]
            releases := st.releases ++ [(pkg.path, none)] }
      | .ok none => st
      | .ok (some r) =>
        { st with
          comments := st.comments ++ [successComment pkg.name]
          releases := st.releases ++ [(pkg.path, some r)] }

/-- Result of the release-creation phase: the final loop state plus the
relabelling performed after the loop (src/unnamed/part_001:713-716). -/
structure RelResult where
  allReleasesCreated : Bool
  releases : List (String × Option Nat)
  comments : List String
  addedReleasedLabel : Bool
  removedPendingLabel : Bool
deriving DecidableEq, Repr

/-- The release-creation loop of `Manifest.githubRelease`
(src/unnamed/part_001:625-717): `allReleasesCreated` starts as
`!!packages.length`, each candidate is processed in order, and the source
pull request is relabelled from pending to released exactly when the flag
survived the loop. -/
def githubReleaseLoop (pkgs : List RelPkg) : RelResult :=
  let st := pkgs.foldl githubReleaseStep ⟨!pkgs.isEmpty, [], []⟩
  { allReleasesCreated := st.allReleasesCreated
    releases := st.releases
    comments := st.comments
    addedReleasedLabel := st.allReleasesCreated
    removedPendingLabel := st.allReleasesCreated }

/-- The generic-failure branch condition (src/unnamed/part_001:683-696): the
candidate had a truthy last version and `createRelease` threw an error that
is not a 422 with a non-empty error list. -/
def genericFailure (pkg : RelPkg) : Bool :=
  match pkg.lastVersion with
  | none => false
  | some v =>
    if v = "" then false
    else
      match pkg.outcome with
      | .err e => !isSkippableErr e
      | .ok _ => false

/-- `Manifest.githubRelease` (src/unnamed/part_001:584-587): the validation
guard returns before any remote mutation; `k` stands for the remainder of
the method, with the `List String` component collecting remote mutations. -/
def githubReleaseRun (config man : Option JsonVal)
    (k : Unit → Option RelResult × List String) :
    Option RelResult × List String :=
  if validateM config man then k () else (none, [])

/-- Concrete fixtures: the chain scenario of the spec (pkgA directly updated
to 1.1.2, pkgB at 2.2.2 depending on `^1.1.1`, pkgC at 3.3.3 depending on
`^2.2.2`). -/
def chainA : PackageJson :=
  ⟨"@here/pkgA", "1.1.2", [("@there/foo", "^4.1.7")]⟩

def chainB : PackageJson :=
  ⟨"@here/pkgB", "2.2.2", [("@here/pkgA", "^1.1.1"), ("someExternal", "^9.2.3")]⟩

def chainC : PackageJson :=
  ⟨"@here/pkgC", "3.3.3", [("@here/pkgB", "^2.2.2"), ("anotherExternal", "^4.3.1")]⟩

def chainPkgs : List (String × PackageJson) :=
  [("packages/pkgA/package.json", chainA),
   ("packages/pkgB/package.json", chainB),
   ("packages/pkgC/package.json", chainC)]

def chainRp : List String := ["packages/pkgA/package.json"]

/-- An isolated package with no dependency path to any updated package. -/
def pkgD : PackageJson := ⟨"@here/pkgD", "4.4.4", [("ext", "^1.0.0")]⟩

def c6Pkgs : List (String × PackageJson) :=
  chainPkgs ++ [("packages/pkgD/package.json", pkgD)]

/-- Fixtures for the invalid-version isolation claim: pkgBad depends on the
directly updated pkgA but carries an unparsable version; pkgSib is an
unaffected sibling dependent. -/
def c7Bad : PackageJson :=
  ⟨"@here/pkgBad", "not-a-version", [("@here/pkgA", "^1.1.1")]⟩

def c7Sib : PackageJson :=
  ⟨"@here/pkgSib", "5.0.1", [("@here/pkgA", "^1.1.1")]⟩

def c7Pkgs : List (String × PackageJson) :=
  [("packages/pkgA/package.json", chainA),
   ("packages/pkgBad/package.json", c7Bad),
   ("packages/pkgSib/package.json", c7Sib)]

/-- Fixtures for the path-reference exclusion claim: pkgF depends on the
directly updated pkgA through a `file:` (directory type) reference. -/
def c8F : PackageJson :=
  ⟨"@here/pkgF", "2.2.2", [("@here/pkgA", "file:../pkgA")]⟩

def c8Pkgs : List (String × PackageJson) :=
  [("packages/pkgA/package.json", chainA), ("packages/pkgF/package.json", c8F)]

/-- Fixtures for the release-creation loop: a 422 error that is not the
duplicate-tag conflict, the duplicate-tag conflict itself, a plain server
error, and a successful candidate. -/
def err422Other : GHError := ⟨422, [⟨"invalid", "name"⟩], "Validation Failed"⟩

def errDupTag : GHError :=
  ⟨422, [⟨"already_exists", "tag_name"⟩], "Validation Failed"⟩

def err500 : GHError := ⟨500, [], "boom"⟩

def pkg422 : RelPkg := ⟨"packages/a", "a", some "1.0.0", .err err422Other⟩

def pkgDupTag : RelPkg := ⟨"packages/a", "a", some "1.0.0", .err errDupTag⟩

def pkgOk : RelPkg := ⟨"packages/b", "b", some "2.0.0", .ok (some 7)⟩

def pkgFail : RelPkg := ⟨"packages/c", "c", some "3.0.0", .err err500⟩

/-- Fixtures for the PR-data merge: pkgB was directly updated (it already
has a pending file change from its releaser, whose content still holds the
old `^1.1.1` constraint on pkgA), and the propagator rewrote its descriptor
to depend on `^1.1.2`; pkgC is a dependent with no pending entry. -/
def c3OldB : PackageJson :=
  ⟨"@here/pkgB", "2.3.0", [("@here/pkgA", "^1.1.1"), ("someExternal", "^9.2.3")]⟩

def c3NewB : PackageJson :=
  ⟨"@here/pkgB", "2.3.0", [("@here/pkgA", "^1.1.2"), ("someExternal", "^9.2.3")]⟩

def c3NewC : PackageJson := ⟨"@here/pkgC", "3.3.4", [("@here/pkgB", "^2.3.0")]⟩

def c3OldContent : String := packageJsonStringify c3OldB

def c3Parsed : List PkgConfig :=
  [⟨"packages/pkgB", "node", none⟩, ⟨"packages/pkgC", "node", none⟩]

def c3Pkgs : List ManifestPackageWithPRData :=
  [⟨⟨"packages/pkgB", "node", none⟩,
    ⟨"2.3.0", [("packages/pkgB/package.json", ⟨c3OldContent, "100644"⟩)]⟩⟩]

def c3Nmv : List (String × String) := [("packages/pkgB", "2.3.0")]

def c3AllUpdated : List (String × PackageJson) :=
  [("packages/pkgB/package.json", c3NewB),
   ("packages/pkgC/package.json", c3NewC)]

/-- Fixtures for the missing-version fallback: `pkgs/p1` has attributable
commits but no entry in the manifest at the resolved reference; the tip
manifest has one. -/
def c5Packages : List String := ["pkgs/p1", "pkgs/p2"]

def c5Commits : String → List String :=
  fun p => if p == "pkgs/p1" then ["shaOne"] else ["shaTwo"]

def c5MSha : List (String × String) := [("pkgs/p2", "1.0.0")]

def c5MTip : List (String × String) := [("pkgs/p1", "0.3.0"), ("pkgs/p2", "1.0.0")]

/-- Fixtures for validation: a well-formed config and a manifest whose value
for `pkgs/p1` is a number instead of a string. -/
def c9Config : Option JsonVal :=
  some (.obj [("packages", .obj [("pkgs/p1", .obj [])])])

def c9ManFields : List (String × JsonVal) := [("pkgs/p1", .num 1)]

def c9Man : Option JsonVal := some (.obj c9ManFields)

theorem reachesUpd_zero (rp : List String) (allPkgs : List (String × PackageJson))
    (q : String × PackageJson) :
    reachesUpd rp allPkgs 0 q = rp.contains q.1 := rfl

theorem reachesUpd_succ_iff (rp : List String)
    (allPkgs : List (String × PackageJson)) (n : Nat) (q : String × PackageJson) :
    reachesUpd rp allPkgs (n + 1) q = true ↔
      rp.contains q.1 = true ∨
        ∃ d ∈ q.2.dependencies, ∃ q2 ∈ allPkgs,
          q2.2.name = d.1 ∧ reachesUpd rp allPkgs n q2 = true := by
  simp [reachesUpd, List.any_eq_true, Bool.or_eq_true, Bool.and_eq_true,
    beq_iff_eq]

theorem reachesUpd_mono (rp : List String) (allPkgs : List (String × PackageJson)) :
    ∀ n q, reachesUpd rp allPkgs n q = true → reachesUpd rp allPkgs (n + 1) q = true := by
  intro n
  induction n with
  | zero =>
    intro q h
    rw [reachesUpd_succ_iff]
    exact Or.inl (by rwa [reachesUpd_zero] at h)
  | succ n ih =>
    intro q h
    rw [reachesUpd_succ_iff] at h ⊢
    rcases h with h | ⟨d, hd, q2, hq2, hn, hr⟩
    · exact Or.inl h
    · exact Or.inr ⟨d, hd, q2, hq2, hn, ih q2 hr⟩

theorem reachesUpd_le (rp : List String) (allPkgs : List (String × PackageJson))
    {n m : Nat} (h : n ≤ m) :
    ∀ q, reachesUpd rp allPkgs n q = true → reachesUpd rp allPkgs m q = true := by
  induction h with
  | refl => exact fun q h => h
  | step _ ih => exact fun q hq => reachesUpd_mono rp allPkgs _ q (ih q hq)

theorem reachesUpd_stab_step (rp : List String)
    (allPkgs : List (String × PackageJson)) (n : Nat)
    (h : ∀ q ∈ allPkgs, reachesUpd rp allPkgs (n + 1) q = reachesUpd rp allPkgs n q) :
    ∀ q, reachesUpd rp allPkgs (n + 2) q = reachesUpd rp allPkgs (n + 1) q := by
  intro q
  have hiff : reachesUpd rp allPkgs (n + 2) q = true ↔
      reachesUpd rp allPkgs (n + 1) q = true := by
    rw [reachesUpd_succ_iff, reachesUpd_succ_iff]
    constructor
    · rintro (h1 | ⟨d, hd, q2, hq2, hn, hr⟩)
      · exact Or.inl h1
      · rw [h q2 hq2] at hr
        exact Or.inr ⟨d, hd, q2, hq2, hn, hr⟩
    · rintro (h1 | ⟨d, hd, q2, hq2, hn, hr⟩)
      · exact Or.inl h1
      · exact Or.inr ⟨d, hd, q2, hq2, hn, reachesUpd_mono rp allPkgs n q2 hr⟩
  cases h2 : reachesUpd rp allPkgs (n + 1) q with
  | true => exact hiff.mpr h2
  | false =>
    cases h3 : reachesUpd rp allPkgs (n + 2) q with
    | false => rfl
    | true => rw [hiff.mp h3] at h2; cases h2

theorem reachesUpd_stab_chain (rp : List String)
    (allPkgs : List (String × PackageJson)) (k : Nat)
    (h : ∀ q ∈ allPkgs, reachesUpd rp allPkgs (k + 1) q = reachesUpd rp allPkgs k q) :
    ∀ j, ∀ q ∈ allPkgs,
      reachesUpd rp allPkgs (k + j + 1) q = reachesUpd rp allPkgs (k + j) q := by
  intro j
  induction j with
  | zero => exact h
  | succ j ih =>
    intro q hq
    exact reachesUpd_stab_step rp allPkgs (k + j) ih q

theorem reachesUpd_stab_ge (rp : List String)
    (allPkgs : List (String × PackageJson)) (k : Nat)
    (h : ∀ q ∈ allPkgs, reachesUpd rp allPkgs (k + 1) q = reachesUpd rp allPkgs k q) :
    ∀ j, ∀ q ∈ allPkgs, reachesUpd rp allPkgs (k + j) q = reachesUpd rp allPkgs k q := by
  intro j
  induction j with
  | zero => exact fun q _ => rfl
  | succ j ih =>
    intro q hq
    have h1 := reachesUpd_stab_chain rp allPkgs k h j q hq
    rw [show k + (j + 1) = k + j + 1 from rfl, h1]
    exact ih q hq

theorem countP_le_of_imp {α : Type} (l : List α) (p q : α → Bool)
    (h : ∀ a ∈ l, p a = true → q a = true) : l.countP p ≤ l.countP q := by
  induction l with
  | nil => simp
  | cons a l ih =>
    rw [List.countP_cons, List.countP_cons]
    have hrec := ih fun b hb => h b (List.mem_cons_of_mem a hb)
    cases hp : p a with
    | false => cases q a <;> simp <;> omega
    | true => rw [h a (List.mem_cons_self a l) hp]; simpa using hrec

theorem countP_lt_of_imp {α : Type} (l : List α) (p q : α → Bool)
    (h : ∀ a ∈ l, p a = true → q a = true) (a0 : α) (ha0 : a0 ∈ l)
    (hp : p a0 = false) (hq : q a0 = true) : l.countP p < l.countP q := by
  induction l with
  | nil => cases ha0
  | cons a l ih =>
    rw [List.countP_cons, List.countP_cons]
    rcases List.mem_cons.mp ha0 with rfl | ha0
    · rw [hp, hq]
      have hrec := countP_le_of_imp l p q fun b hb => h b (List.mem_cons_of_mem a0 hb)
      have e1 : (if (false = true) then 1 else 0) = 0 := rfl
      have e2 : (if (true = true) then 1 else 0) = 1 := rfl
      rw [e1, e2]
      omega
    · have hrec := ih (fun b hb => h b (List.mem_cons_of_mem a hb)) ha0
      cases hpa : p a with
      | false => cases q a <;> simp <;> omega
      | true => rw [h a (List.mem_cons_self a l) hpa]; simpa using hrec

theorem reaches_stab_or_count (rp : List String)
    (allPkgs : List (String × PackageJson)) :
    ∀ n, (∃ k, k ≤ n ∧ ∀ q ∈ allPkgs,
        reachesUpd rp allPkgs (k + 1) q = reachesUpd rp allPkgs k q) ∨
      n ≤ allPkgs.countP fun q => reachesUpd rp allPkgs n q := by
  intro n
  induction n with
  | zero => exact Or.inr (Nat.zero_le _)
  | succ n ih =>
    rcases ih with ⟨k, hk, hs⟩ | hc
    · exact Or.inl ⟨k, Nat.le_succ_of_le hk, hs⟩
    · by_cases hstab : ∀ q ∈ allPkgs,
          reachesUpd rp allPkgs (n + 1) q = reachesUpd rp allPkgs n q
      · exact Or.inl ⟨n, Nat.le_succ n, hstab⟩
      · right
        push_neg at hstab
        obtain ⟨q0, hq0, hne⟩ := hstab
        have h1 : reachesUpd rp allPkgs n q0 = false := by
          cases hn : reachesUpd rp allPkgs n q0 with
          | false => rfl
          | true =>
            exact absurd (by rw [reachesUpd_mono rp allPkgs n q0 hn, hn]) hne
        have h2 : reachesUpd rp allPkgs (n + 1) q0 = true := by
          cases hn : reachesUpd rp allPkgs (n + 1) q0 with
          | false => exact absurd (by rw [hn, h1]) hne
          | true => rfl
        have hlt := countP_lt_of_imp allPkgs
          (fun a => reachesUpd rp allPkgs n a)
          (fun a => reachesUpd rp allPkgs (n + 1) a)
          (fun a _ hp => reachesUpd_mono rp allPkgs n a hp) q0 hq0 h1 h2
        omega

theorem reachesUpd_of_any_fuel (rp : List String)
    (allPkgs : List (String × PackageJson)) :
    ∀ n, ∀ q ∈ allPkgs, reachesUpd rp allPkgs n q = true →
      reachesUpd rp allPkgs allPkgs.length q = true := by
  intro n q hq h
  rcases reaches_stab_or_count rp allPkgs allPkgs.length with ⟨k, hkL, hs⟩ | hc
  · have hge := reachesUpd_stab_ge rp allPkgs k hs
    by_cases hnk : n ≤ k
    · have hk : reachesUpd rp allPkgs k q = true :=
        reachesUpd_le rp allPkgs hnk q h
      have hL := hge (allPkgs.length - k) q hq
      rw [Nat.add_sub_cancel' hkL] at hL
      rw [hL]; exact hk
    · have hkn : k ≤ n := Nat.le_of_lt (Nat.lt_of_not_le hnk)
      have h1 := hge (n - k) q hq
      rw [Nat.add_sub_cancel' hkn] at h1
      have hk : reachesUpd rp allPkgs k q = true := by rw [← h1]; exact h
      have hL := hge (allPkgs.length - k) q hq
      rw [Nat.add_sub_cancel' hkL] at hL
      rw [hL]; exact hk
  · have hle : allPkgs.countP (fun q => reachesUpd rp allPkgs allPkgs.length q) ≤
        allPkgs.length := List.countP_le_length _
    have heq : allPkgs.countP (fun q => reachesUpd rp allPkgs allPkgs.length q) =
        allPkgs.length := Nat.le_antisymm hle hc
    have hall := List.countP_eq_length.mp heq
    exact hall q hq

theorem exists_fuel_of_reaches (rp : List String)
    (allPkgs : List (String × PackageJson)) (q : String × PackageJson)
    (h : ReachesUpdated rp allPkgs q) :
    ∃ n, reachesUpd rp allPkgs n q = true := by
  induction h with
  | base q hq hr => exact ⟨0, by rwa [reachesUpd_zero]⟩
  | step q hq d hd q2 hq2 hname h ih =>
    obtain ⟨n, hn⟩ := ih
    exact ⟨n + 1, (reachesUpd_succ_iff rp allPkgs n q).mpr
      (Or.inr ⟨d, hd, q2, hq2, hname, hn⟩)⟩

theorem mem_of_reaches (rp : List String) (allPkgs : List (String × PackageJson))
    (q : String × PackageJson) (h : ReachesUpdated rp allPkgs q) : q ∈ allPkgs := by
  cases h with
  | base _ hq _ => exact hq
  | step _ hq _ _ _ _ _ _ => exact hq

theorem reachesUpd_full_of_reaches (rp : List String)
    (allPkgs : List (String × PackageJson)) (q : String × PackageJson)
    (h : ReachesUpdated rp allPkgs q) :
    reachesUpd rp allPkgs allPkgs.length q = true := by
  obtain ⟨n, hn⟩ := exists_fuel_of_reaches rp allPkgs q h
  exact reachesUpd_of_any_fuel rp allPkgs n q (mem_of_reaches rp allPkgs q h) hn

theorem reaches_of_reachesUpd (rp : List String)
    (allPkgs : List (String × PackageJson)) :
    ∀ n q, q ∈ allPkgs → reachesUpd rp allPkgs n q = true →
      ReachesUpdated rp allPkgs q := by
  intro n
  induction n with
  | zero =>
    intro q hq h
    exact .base q hq (by rwa [reachesUpd_zero] at h)
  | succ n ih =>
    intro q hq h
    rcases (reachesUpd_succ_iff rp allPkgs n q).mp h with h | ⟨d, hd, q2, hq2, hn, hr⟩
    · exact .base q hq h
    · exact .step q hq d hd q2 hq2 hn (ih q2 hq2 hr)

theorem lookup_of_mem_nodup {β : Type} {l : List (String × β)}
    (hnd : (l.map Prod.fst).Nodup) {k : String} {v : β} (h : (k, v) ∈ l) :
    l.lookup k = some v := by
  induction l with
  | nil => cases h
  | cons a l ih =>
    obtain ⟨a1, a2⟩ := a
    rw [List.map_cons, List.nodup_cons] at hnd
    rcases List.mem_cons.mp h with h1 | h1
    · have hk : k = a1 := congrArg Prod.fst h1
      have hv : v = a2 := congrArg Prod.snd h1
      subst hk
      subst hv
      simp [List.lookup]
    · have hk : k ≠ a1 := fun he =>
        hnd.1 (by simpa [← he] using List.mem_map_of_mem Prod.fst h1)
      have hbeq : (k == a1) = false := beq_eq_false_iff_ne.mpr hk
      simp only [List.lookup, hbeq]
      exact ih hnd.2 h1

theorem eq_of_map_nodup {α β : Type} {l : List α} (g : α → β)
    (hnd : (l.map g).Nodup) {a b : α} (ha : a ∈ l) (hb : b ∈ l)
    (heq : g a = g b) : a = b := by
  induction l with
  | nil => cases ha
  | cons x l ih =>
    rw [List.map_cons, List.nodup_cons] at hnd
    rcases List.mem_cons.mp ha with rfl | ha1
    · rcases List.mem_cons.mp hb with h | hb1
      · exact h.symm
      · exact absurd (heq.symm ▸ List.mem_map_of_mem g hb1) hnd.1
    · rcases List.mem_cons.mp hb with rfl | hb1
      · exact absurd (heq ▸ List.mem_map_of_mem g ha1) hnd.1
      · exact ih hnd.2 ha1 hb1

theorem map_fst_filterMap_sublist {α β : Type} (l : List α)
    (f : α → Option (String × β)) (g : α → String)
    (hf : ∀ a x, f a = some x → x.1 = g a) :
    ((l.filterMap f).map Prod.fst).Sublist (l.map g) := by
  induction l with
  | nil => simp
  | cons a l ih =>
    rw [List.filterMap_cons, List.map_cons]
    cases hfa : f a with
    | none => exact ih.cons (g a)
    | some x =>
      rw [List.map_cons, ← hf a x hfa]
      exact ih.cons₂ x.1

theorem mem_ups_of_reaches (rp : List String)
    (allPkgs : List (String × PackageJson)) (q : String × PackageJson)
    (h : ReachesUpdated rp allPkgs q) : q ∈ updatesWithDependents rp allPkgs :=
  List.mem_filter.mpr
    ⟨mem_of_reaches rp allPkgs q h, reachesUpd_full_of_reaches rp allPkgs q h⟩

theorem reaches_of_mem_ups (rp : List String)
    (allPkgs : List (String × PackageJson)) (q : String × PackageJson)
    (h : q ∈ updatesWithDependents rp allPkgs) : ReachesUpdated rp allPkgs q := by
  have h2 := List.mem_filter.mp h
  exact reaches_of_reachesUpd rp allPkgs allPkgs.length q h2.1 h2.2

theorem ups_names_nodup (rp : List String)
    (allPkgs : List (String × PackageJson))
    (h : (allPkgs.map fun q => q.2.name).Nodup) :
    ((updatesWithDependents rp allPkgs).map fun q => q.2.name).Nodup :=
  ((List.filter_sublist allPkgs).map fun q => q.2.name).nodup h

theorem mem_updatesVersions_direct (rp : List String)
    (ups : List (String × PackageJson)) (q : String × PackageJson)
    (hq : q ∈ ups) (hd : rp.contains q.1 = true) :
    (q.2.name, q.2.version) ∈ updatesVersions rp ups :=
  List.mem_filterMap.mpr ⟨q, hq, by rw [if_pos hd]⟩

theorem mem_updatesVersions_patch (rp : List String)
    (ups : List (String × PackageJson)) (q : String × PackageJson)
    (hq : q ∈ ups) (hd : rp.contains q.1 = false) {v : String}
    (hv : incPatch q.2.version = some v) :
    (q.2.name, v) ∈ updatesVersions rp ups :=
  List.mem_filterMap.mpr ⟨q, hq, by rw [if_neg (by rw [hd]; simp), hv]; rfl⟩

theorem uv_keys_sublist (rp : List String) (ups : List (String × PackageJson)) :
    ((updatesVersions rp ups).map Prod.fst).Sublist
      (ups.map fun q => q.2.name) := by
  apply map_fst_filterMap_sublist
  intro a x hx
  by_cases hr : rp.contains a.1 = true
  · rw [if_pos hr] at hx
    cases hx
    rfl
  · rw [if_neg hr] at hx
    rcases Option.map_eq_some'.mp hx with ⟨v, _, hv2⟩
    rw [← hv2]

theorem mem_invalid_elim (rp : List String) (ups : List (String × PackageJson))
    (name : String) (h : name ∈ invalidVersions rp ups) :
    ∃ q ∈ ups, q.2.name = name ∧ rp.contains q.1 = false ∧
      incPatch q.2.version = none := by
  obtain ⟨q, hq, hfq⟩ := List.mem_filterMap.mp h
  by_cases hr : rp.contains q.1 = true
  · rw [if_pos hr] at hfq
    cases hfq
  · rw [if_neg hr] at hfq
    cases hp : incPatch q.2.version with
    | none =>
      rw [hp] at hfq
      cases hfq
      exact ⟨q, hq, rfl, by simpa using hr, hp⟩
    | some v =>
      rw [hp] at hfq
      cases hfq

theorem not_mem_invalid (rp : List String) (allPkgs : List (String × PackageJson))
    (hnames : (allPkgs.map fun q => q.2.name).Nodup)
    (C : String × PackageJson) (hC : C ∈ updatesWithDependents rp allPkgs)
    (hcv : (if rp.contains C.1 = true then some C.2.version
        else incPatch C.2.version).isSome = true) :
    C.2.name ∉ invalidVersions rp (updatesWithDependents rp allPkgs) := by
  intro hmem
  obtain ⟨q, hq, hname, hrp, hnone⟩ := mem_invalid_elim rp _ _ hmem
  have hqC : q = C := eq_of_map_nodup (fun q => q.2.name)
    (ups_names_nodup rp allPkgs hnames) hq hC hname
  subst hqC
  rw [if_neg (by rw [hrp]; simp), hnone] at hcv
  cases hcv

theorem runLerna_entry (rp : List String) (allPkgs : List (String × PackageJson))
    (hnames : (allPkgs.map fun q => q.2.name).Nodup)
    (hlocs : (allPkgs.map Prod.fst).Nodup)
    (C : String × PackageJson) (hreach : ReachesUpdated rp allPkgs C)
    (cv : String)
    (hcv : (if rp.contains C.1 = true then some C.2.version
        else incPatch C.2.version) = some cv) :
    (runLernaVersion rp allPkgs).lookup C.1 =
      some (runnerPkg allPkgs
        (updatesVersions rp (updatesWithDependents rp allPkgs)) C.2) ∧
    (runnerPkg allPkgs (updatesVersions rp (updatesWithDependents rp allPkgs))
        C.2).version = cv := by
  have hCups := mem_ups_of_reaches rp allPkgs C hreach
  have hmem : (C.2.name, cv) ∈
      updatesVersions rp (updatesWithDependents rp allPkgs) := by
    by_cases hr : rp.contains C.1 = true
    · rw [if_pos hr] at hcv
      cases hcv
      exact mem_updatesVersions_direct rp _ C hCups hr
    · rw [if_neg hr] at hcv
      exact mem_updatesVersions_patch rp _ C hCups (by simpa using hr) hcv
  have huvnodup : ((updatesVersions rp
      (updatesWithDependents rp allPkgs)).map Prod.fst).Nodup :=
    (uv_keys_sublist rp _).nodup (ups_names_nodup rp allPkgs hnames)
  have hlook : (updatesVersions rp
      (updatesWithDependents rp allPkgs)).lookup C.2.name = some cv :=
    lookup_of_mem_nodup huvnodup hmem
  have hver : (runnerPkg allPkgs
      (updatesVersions rp (updatesWithDependents rp allPkgs)) C.2).version = cv := by
    simp [runnerPkg, hlook]
  refine ⟨?_, hver⟩
  have hninv : C.2.name ∉ invalidVersions rp (updatesWithDependents rp allPkgs) :=
    not_mem_invalid rp allPkgs hnames C hCups (by rw [hcv]; rfl)
  have hfilter : C ∈ (updatesWithDependents rp allPkgs).filter
      (fun q => !(invalidVersions rp
        (updatesWithDependents rp allPkgs)).contains q.2.name) := by
    refine List.mem_filter.mpr ⟨hCups, ?_⟩
    simp only [Bool.not_eq_true', ← Bool.not_eq_true]
    intro hcont
    exact hninv (List.elem_iff.mp hcont)
  have hout : (C.1, runnerPkg allPkgs
      (updatesVersions rp (updatesWithDependents rp allPkgs)) C.2)
      ∈ runLernaVersion rp allPkgs := by
    simp only [runLernaVersion]
    exact List.mem_map.mpr ⟨C, hfilter, rfl⟩
  have h1 : (runLernaVersion rp allPkgs).map Prod.fst =
      ((updatesWithDependents rp allPkgs).filter
        (fun q => !(invalidVersions rp
          (updatesWithDependents rp allPkgs)).contains q.2.name)).map Prod.fst := by
    simp only [runLernaVersion, List.map_map]
    rfl
  have hkeys : ((runLernaVersion rp allPkgs).map Prod.fst).Nodup := by
    rw [h1]
    exact (((List.filter_sublist _).map Prod.fst).trans
      ((List.filter_sublist _).map Prod.fst)).nodup hlocs
  exact lookup_of_mem_nodup hkeys hout

theorem mem_runLerna_elim (rp : List String)
    (allPkgs : List (String × PackageJson)) (x : String × PackageJson)
    (hx : x ∈ runLernaVersion rp allPkgs) :
    ∃ q ∈ allPkgs, reachesUpd rp allPkgs allPkgs.length q = true ∧
      (invalidVersions rp
        (updatesWithDependents rp allPkgs)).contains q.2.name = false ∧
      x = (q.1, runnerPkg allPkgs
        (updatesVersions rp (updatesWithDependents rp allPkgs)) q.2) := by
  simp only [runLernaVersion] at hx
  obtain ⟨q, hq, hxq⟩ := List.mem_map.mp hx
  have h2 := List.mem_filter.mp hq
  have h3 := List.mem_filter.mp h2.1
  exact ⟨q, h3.1, h3.2, by simpa using h2.2, hxq.symm⟩

theorem runner_dep_cases (allPkgs : List (String × PackageJson))
    (uv : List (String × String)) (p : PackageJson)
    (d : String × String) (hd : d ∈ p.dependencies) :
    (isDirectorySpec d.2 = true → d ∈ (runnerPkg allPkgs uv p).dependencies) ∧
    (d ∈ (runnerPkg allPkgs uv p).dependencies ∨
      (isDirectorySpec d.2 = false ∧
        ∃ dv, (d.1, "^" ++ dv) ∈ (runnerPkg allPkgs uv p).dependencies)) := by
  have hdeps : (runnerPkg allPkgs uv p).dependencies =
      p.dependencies.map (fun d =>
        if (graphNames allPkgs).contains d.1 then
          match uv.lookup d.1 with
          | some dv => if isDirectorySpec d.2 then d else (d.1, "^" ++ dv)
          | none => d
        else d) := rfl
  rw [hdeps]
  by_cases hg : (graphNames allPkgs).contains d.1 = true
  · cases hlk : uv.lookup d.1 with
    | none =>
      have hfd : d ∈ p.dependencies.map (fun d =>
          if (graphNames allPkgs).contains d.1 = true then
            match uv.lookup d.1 with
            | some dv => if isDirectorySpec d.2 = true then d else (d.1, "^" ++ dv)
            | none => d
          else d) :=
        List.mem_map.mpr ⟨d, hd, by rw [if_pos hg, hlk]⟩
      exact ⟨fun _ => hfd, Or.inl hfd⟩
    | some dv =>
      cases hdir : isDirectorySpec d.2 with
      | true =>
        have hfd : d ∈ p.dependencies.map (fun d =>
            if (graphNames allPkgs).contains d.1 = true then
              match uv.lookup d.1 with
              | some dv => if isDirectorySpec d.2 = true then d else (d.1, "^" ++ dv)
              | none => d
            else d) :=
          List.mem_map.mpr ⟨d, hd, by
            rw [if_pos hg, hlk]
            show (if isDirectorySpec d.2 = true then d else (d.1, "^" ++ dv)) = d
            rw [if_pos hdir]⟩
        exact ⟨fun _ => hfd, Or.inl hfd⟩
      | false =>
        have hfd : (d.1, "^" ++ dv) ∈ p.dependencies.map (fun d =>
            if (graphNames allPkgs).contains d.1 = true then
              match uv.lookup d.1 with
              | some dv => if isDirectorySpec d.2 = true then d else (d.1, "^" ++ dv)
              | none => d
            else d) :=
          List.mem_map.mpr ⟨d, hd, by
            rw [if_pos hg, hlk]
            show (if isDirectorySpec d.2 = true then d else (d.1, "^" ++ dv)) =
              (d.1, "^" ++ dv)
            rw [if_neg (by rw [hdir]; simp)]⟩
        exact ⟨fun h => absurd h (by simp),
          Or.inr ⟨rfl, dv, hfd⟩⟩
  · have hfd : d ∈ p.dependencies.map (fun d =>
        if (graphNames allPkgs).contains d.1 = true then
          match uv.lookup d.1 with
          | some dv => if isDirectorySpec d.2 = true then d else (d.1, "^" ++ dv)
          | none => d
        else d) :=
      List.mem_map.mpr ⟨d, hd, by rw [if_neg hg]⟩
    exact ⟨fun _ => hfd, Or.inl hfd⟩

/-- C1: in the workspace propagation pass, every package that is not
directly updated but is a transitive dependent of some directly updated
package and has a parsable previous version receives, in the propagation
output, exactly the patch increment of its previous version, and each of its
local, non-directory dependency edges whose target is also in the update set
— directly updated, or itself a transitive dependent — is rewritten to a
caret constraint against the target's newly computed version (the version
already set in the target's descriptor when it was directly updated, the
patch increment of its previous version otherwise). -/
theorem c1_dependents_patch_and_caret (rp : List String)
    (allPkgs : List (String × PackageJson))
    (hnames : (allPkgs.map fun q => q.2.name).Nodup)
    (hlocs : (allPkgs.map Prod.fst).Nodup)
    (B : String × PackageJson)
    (hBnd : rp.contains B.1 = false)
    (hreach : ReachesUpdated rp allPkgs B)
    (bv : String) (hbv : incPatch B.2.version = some bv) :
    ∃ pB, (runLernaVersion rp allPkgs).lookup B.1 = some pB ∧
      pB.version = bv ∧
      ∀ A ∈ allPkgs, ReachesUpdated rp allPkgs A →
        ∀ av, (if rp.contains A.1 = true then some A.2.version
            else incPatch A.2.version) = some av →
          ∀ spec, (A.2.name, spec) ∈ B.2.dependencies →
            isDirectorySpec spec = false →
            (A.2.name, "^" ++ av) ∈ pB.dependencies := by
  have hcv : (if rp.contains B.1 = true then some B.2.version
      else incPatch B.2.version) = some bv := by
    rw [if_neg (by rw [hBnd]; simp)]
    exact hbv
  obtain ⟨hlk, hv⟩ := runLerna_entry rp allPkgs hnames hlocs B hreach bv hcv
  refine ⟨_, hlk, hv, ?_⟩
  intro A hA hAreach av hav spec hspec hdir
  have hAups := mem_ups_of_reaches rp allPkgs A hAreach
  have hAuv : (A.2.name, av) ∈
      updatesVersions rp (updatesWithDependents rp allPkgs) := by
    by_cases hr : rp.contains A.1 = true
    · rw [if_pos hr] at hav
      cases hav
      exact mem_updatesVersions_direct rp _ A hAups hr
    · rw [if_neg hr] at hav
      exact mem_updatesVersions_patch rp _ A hAups (by simpa using hr) hav
  have huvnodup : ((updatesVersions rp
      (updatesWithDependents rp allPkgs)).map Prod.fst).Nodup :=
    (uv_keys_sublist rp _).nodup (ups_names_nodup rp allPkgs hnames)
  have hAlook := lookup_of_mem_nodup huvnodup hAuv
  have hgnmem : A.2.name ∈ graphNames allPkgs := by
    unfold graphNames
    exact List.mem_map_of_mem _ hA
  have hgn : (graphNames allPkgs).contains A.2.name = true :=
    List.elem_iff.mpr hgnmem
  have hdeps : (runnerPkg allPkgs
      (updatesVersions rp (updatesWithDependents rp allPkgs)) B.2).dependencies =
      B.2.dependencies.map (fun d =>
        if (graphNames allPkgs).contains d.1 then
          match (updatesVersions rp
            (updatesWithDependents rp allPkgs)).lookup d.1 with
          | some dv => if isDirectorySpec d.2 then d else (d.1, "^" ++ dv)
          | none => d
        else d) := rfl
  rw [hdeps]
  refine List.mem_map.mpr ⟨(A.2.name, spec), hspec, ?_⟩
  rw [if_pos hgn, hAlook]
  show (if isDirectorySpec spec = true then (A.2.name, spec)
      else (A.2.name, "^" ++ av)) = (A.2.name, "^" ++ av)
  rw [if_neg (by rw [hdir]; simp)]

/-- C1 witness: the spec's chain scenario (pkgA updated 1.1.1 → 1.1.2 by an
upstream releaser, pkgB 2.2.2 depending on `^1.1.1`, pkgC 3.3.3 depending on
`^2.2.2`): the output holds pkgB 2.2.3 with its pkgA edge rewritten to
`^1.1.2` (against the directly updated pkgA), and pkgC 3.3.4 with its pkgB
edge rewritten to `^2.2.3` (against the patch-bumped pkgB's newly computed
version). -/
theorem c1_witness :
    incPatch "2.2.2" = some "2.2.3" ∧ incPatch "3.3.3" = some "3.3.4" ∧
    (∃ pB, (runLernaVersion chainRp chainPkgs).lookup
        "packages/pkgB/package.json" = some pB ∧
      pB.version = "2.2.3" ∧ ("@here/pkgA", "^1.1.2") ∈ pB.dependencies) ∧
    (∃ pC, (runLernaVersion chainRp chainPkgs).lookup
        "packages/pkgC/package.json" = some pC ∧
      pC.version = "3.3.4" ∧ ("@here/pkgB", "^2.2.3") ∈ pC.dependencies) := by
  refine ⟨by decide, by decide, ?_, ?_⟩
  · obtain ⟨pB, h1, h2, h3⟩ :=
      c1_dependents_patch_and_caret chainRp chainPkgs (by decide) (by decide)
        ("packages/pkgB/package.json", chainB) (by decide)
        (.step _ (by decide) ("@here/pkgA", "^1.1.1") (by decide)
          ("packages/pkgA/package.json", chainA) (by decide) (by decide)
          (.base _ (by decide) (by decide)))
        "2.2.3" (by decide)
    exact ⟨pB, h1, h2,
      h3 ("packages/pkgA/package.json", chainA) (by decide)
        (.base _ (by decide) (by decide)) "1.1.2" (by decide)
        "^1.1.1" (by decide) (by decide)⟩
  · obtain ⟨pC, h1, h2, h3⟩ :=
      c1_dependents_patch_and_caret chainRp chainPkgs (by decide) (by decide)
        ("packages/pkgC/package.json", chainC) (by decide)
        (.step _ (by decide) ("@here/pkgB", "^2.2.2") (by decide)
          ("packages/pkgB/package.json", chainB) (by decide) (by decide)
          (.step _ (by decide) ("@here/pkgA", "^1.1.1") (by decide)
            ("packages/pkgA/package.json", chainA) (by decide) (by decide)
            (.base _ (by decide) (by decide))))
        "3.3.4" (by decide)
    exact ⟨pC, h1, h2,
      h3 ("packages/pkgB/package.json", chainB) (by decide)
        (.step _ (by decide) ("@here/pkgA", "^1.1.1") (by decide)
          ("packages/pkgA/package.json", chainA) (by decide) (by decide)
          (.base _ (by decide) (by decide)))
        "2.2.3" (by decide) "^2.2.2" (by decide) (by decide)⟩

/-- C6: a package with no direct or transitive dependency path to any
directly updated package appears nowhere in the propagation output: no entry
of the result carries its location, so neither its version nor its
descriptor is changed or emitted. -/
theorem c6_untouched_package_absent (rp : List String)
    (allPkgs : List (String × PackageJson))
    (hlocs : (allPkgs.map Prod.fst).Nodup)
    (B : String × PackageJson) (hB : B ∈ allPkgs)
    (hno : ¬ ReachesUpdated rp allPkgs B) :
    ∀ x ∈ runLernaVersion rp allPkgs, x.1 ≠ B.1 := by
  intro x hx heq
  obtain ⟨q, hq, hreach, _, hxq⟩ := mem_runLerna_elim rp allPkgs x hx
  have hq1 : q.1 = B.1 := by rw [hxq] at heq; exact heq
  have hqB : q = B := eq_of_map_nodup Prod.fst hlocs hq hB hq1
  exact hno (hqB ▸ reaches_of_reachesUpd rp allPkgs allPkgs.length q hq hreach)

/-- C6 witness: pkgD has no dependency path to the directly updated pkgA,
and no entry of the propagation output carries pkgD's location. -/
theorem c6_witness :
    ("packages/pkgD/package.json", pkgD) ∈ c6Pkgs ∧
    ∀ x ∈ runLernaVersion chainRp c6Pkgs, x.1 ≠ "packages/pkgD/package.json" :=
  ⟨by decide,
    c6_untouched_package_absent chainRp c6Pkgs (by decide)
      ("packages/pkgD/package.json", pkgD) (by decide)
      (fun h => absurd (reachesUpd_full_of_reaches chainRp c6Pkgs _ h)
        (by decide))⟩

/-- C7: a dependent whose previous version does not parse is recorded in the
invalid set and excluded from the propagation output, while every other
candidate (directly updated, or a dependent with a parsable version) is
still processed and receives its expected version. -/
theorem c7_invalid_version_isolation (rp : List String)
    (allPkgs : List (String × PackageJson))
    (hnames : (allPkgs.map fun q => q.2.name).Nodup)
    (hlocs : (allPkgs.map Prod.fst).Nodup)
    (B : String × PackageJson)
    (hBnd : rp.contains B.1 = false)
    (hBreach : ReachesUpdated rp allPkgs B)
    (hBinv : incPatch B.2.version = none) :
    B.2.name ∈ invalidVersions rp (updatesWithDependents rp allPkgs) ∧
    (∀ x ∈ runLernaVersion rp allPkgs, x.1 ≠ B.1) ∧
    ∀ C ∈ allPkgs, ReachesUpdated rp allPkgs C →
      ∀ cv, (if rp.contains C.1 = true then some C.2.version
          else incPatch C.2.version) = some cv →
        ∃ pC, (runLernaVersion rp allPkgs).lookup C.1 = some pC ∧
          pC.version = cv := by
  have hBups := mem_ups_of_reaches rp allPkgs B hBreach
  have hBinvmem : B.2.name ∈
      invalidVersions rp (updatesWithDependents rp allPkgs) :=
    List.mem_filterMap.mpr
      ⟨B, hBups, by rw [if_neg (by rw [hBnd]; simp), hBinv]⟩
  refine ⟨hBinvmem, ?_, ?_⟩
  · intro x hx heq
    obtain ⟨q, hq, _, hqninv, hxq⟩ := mem_runLerna_elim rp allPkgs x hx
    have hq1 : q.1 = B.1 := by rw [hxq] at heq; exact heq
    have hqB : q = B :=
      eq_of_map_nodup Prod.fst hlocs hq (mem_of_reaches rp allPkgs B hBreach) hq1
    rw [hqB] at hqninv
    exact Bool.false_ne_true (hqninv.symm.trans (List.elem_iff.mpr hBinvmem))
  · intro C hC hreachC cv hcv
    exact ⟨_, (runLerna_entry rp allPkgs hnames hlocs C hreachC cv hcv).1,
      (runLerna_entry rp allPkgs hnames hlocs C hreachC cv hcv).2⟩

/-- C7 witness: pkgBad (version `not-a-version`, depending on the directly
updated pkgA) is recorded invalid and dropped, while the sibling dependent
pkgSib and pkgA itself still propagate. -/
theorem c7_witness :
    incPatch "not-a-version" = none ∧
    ("@here/pkgBad" ∈ invalidVersions chainRp (updatesWithDependents chainRp c7Pkgs) ∧
     (∀ x ∈ runLernaVersion chainRp c7Pkgs, x.1 ≠ "packages/pkgBad/package.json") ∧
     ∀ C ∈ c7Pkgs, ReachesUpdated chainRp c7Pkgs C →
       ∀ cv, (if chainRp.contains C.1 = true then some C.2.version
           else incPatch C.2.version) = some cv →
         ∃ pC, (runLernaVersion chainRp c7Pkgs).lookup C.1 = some pC ∧
           pC.version = cv) :=
  ⟨by decide,
    c7_invalid_version_isolation chainRp c7Pkgs (by decide) (by decide)
      ("packages/pkgBad/package.json", c7Bad) (by decide)
      (.step _ (by decide) ("@here/pkgA", "^1.1.1") (by decide)
        ("packages/pkgA/package.json", chainA) (by decide) (by decide)
        (.base _ (by decide) (by decide)))
      (by decide)⟩

/-- C8: a local dependency edge whose resolved reference is of directory
type is never rewritten, even when its target's version changes in the same
run; any dependency edge of a processed package is either left unchanged or,
only when it is a non-directory reference, rewritten to a caret constraint. -/
theorem c8_directory_edge_not_rewritten (rp : List String)
    (allPkgs : List (String × PackageJson))
    (hlocs : (allPkgs.map Prod.fst).Nodup)
    (x : String × PackageJson) (hx : x ∈ runLernaVersion rp allPkgs)
    (p0 : PackageJson) (hp0 : (x.1, p0) ∈ allPkgs) :
    (∀ d ∈ p0.dependencies, isDirectorySpec d.2 = true →
      d ∈ x.2.dependencies) ∧
    (∀ d ∈ p0.dependencies, d ∈ x.2.dependencies ∨
      (isDirectorySpec d.2 = false ∧
        ∃ dv, (d.1, "^" ++ dv) ∈ x.2.dependencies)) := by
  obtain ⟨q, hq, _, _, hxq⟩ := mem_runLerna_elim rp allPkgs x hx
  have hx1 : x.1 = q.1 := by rw [hxq]
  have hqp : q = (x.1, p0) :=
    eq_of_map_nodup Prod.fst hlocs hq hp0 hx1.symm
  have hq2 : q.2 = p0 := by rw [hqp]
  have hx2 : x.2 = runnerPkg allPkgs
      (updatesVersions rp (updatesWithDependents rp allPkgs)) p0 := by
    rw [hxq, hq2]
  constructor
  · intro d hd hdir
    rw [hx2]
    exact (runner_dep_cases allPkgs _ p0 d hd).1 hdir
  · intro d hd
    rw [hx2]
    exact (runner_dep_cases allPkgs _ p0 d hd).2

/-- C8 witness: pkgF depends on the directly updated pkgA through a `file:`
reference; in the propagation output pkgF keeps that edge verbatim. -/
theorem c8_witness :
    isDirectorySpec "file:../pkgA" = true ∧
    (∀ d ∈ c8F.dependencies, isDirectorySpec d.2 = true →
      d ∈ (⟨"@here/pkgF", "2.2.3", [("@here/pkgA", "file:../pkgA")]⟩ :
        PackageJson).dependencies) ∧
    (∀ d ∈ c8F.dependencies,
      d ∈ (⟨"@here/pkgF", "2.2.3", [("@here/pkgA", "file:../pkgA")]⟩ :
        PackageJson).dependencies ∨
      (isDirectorySpec d.2 = false ∧
        ∃ dv, (d.1, "^" ++ dv) ∈ (⟨"@here/pkgF", "2.2.3",
          [("@here/pkgA", "file:../pkgA")]⟩ : PackageJson).dependencies)) :=
  ⟨by decide,
    c8_directory_edge_not_rewritten chainRp c8Pkgs (by decide)
      ("packages/pkgF/package.json",
        ⟨"@here/pkgF", "2.2.3", [("@here/pkgA", "file:../pkgA")]⟩)
      (by decide) c8F (by decide)⟩

theorem step_flag (st : RelState) (pkg : RelPkg) :
    (githubReleaseStep st pkg).allReleasesCreated =
      (st.allReleasesCreated && !genericFailure pkg) := by
  unfold githubReleaseStep genericFailure
  cases pkg.lastVersion with
  | none => simp
  | some v =>
    by_cases hv : v = ""
    · simp [hv]
    · cases pkg.outcome with
      | err e =>
        cases hs : isSkippableErr e with
        | true => simp [hv, hs]
        | false => simp [hv, hs]
      | ok r => cases r <;> simp [hv]

theorem foldl_flag (pkgs : List RelPkg) (st : RelState) :
    (pkgs.foldl githubReleaseStep st).allReleasesCreated =
      (st.allReleasesCreated && pkgs.all fun p => !genericFailure p) := by
  induction pkgs generalizing st with
  | nil => simp
  | cons p pkgs ih =>
    rw [List.foldl_cons, ih, List.all_cons, step_flag]
    cases st.allReleasesCreated <;> cases genericFailure p <;>
      cases pkgs.all fun p => !genericFailure p <;> rfl

/-- C2 counterexample: a `createRelease` failure with status 422 and a
non-empty error list whose first entry is not the
`already_exists`/`tag_name` conflict is not a duplicate-tag conflict, yet
the code neither clears the batch-completion flag nor posts a failure
comment, contradicting the claim that any non-duplicate failure clears the
flag and posts a comment. -/
theorem c2_counterexample :
    err422Other.errors.map GHErrorItem.code = ["invalid"] ∧
    (githubReleaseLoop [pkg422]).allReleasesCreated = true ∧
    (githubReleaseLoop [pkg422]).comments = [] ∧
    (githubReleaseLoop [pkg422]).releases = [("packages/a", none)] := by
  decide

/-- C2 (amended): when `createRelease` throws for a candidate with a truthy
last version, any error with status 422 and a non-empty error list — the
duplicate-tag conflict included — leaves the batch-completion flag and the
comments untouched and records an undefined release; every other failure
clears the flag, appends a failure comment and records an undefined
release; in both cases the loop simply continues with the remaining
candidates. -/
theorem c2_amended_skip_or_fail (st : RelState) (pkg : RelPkg) (v : String)
    (hv : pkg.lastVersion = some v) (hv2 : v ≠ "") (e : GHError)
    (he : pkg.outcome = .err e) :
    (isSkippableErr e = true →
      githubReleaseStep st pkg =
        { st with releases := st.releases ++ [(pkg.path, none)] }) ∧
    (isSkippableErr e = false →
      githubReleaseStep st pkg =
        { allReleasesCreated := false
          comments := st.comments ++ [failureComment pkg.name]
          releases := st.releases ++ [(pkg.path, none)] }) ∧
    ∀ rest : List RelPkg,
      (pkg :: rest).foldl githubReleaseStep st =
        rest.foldl githubReleaseStep (githubReleaseStep st pkg) := by
  refine ⟨?_, ?_, fun rest => List.foldl_cons ..⟩
  · intro hs
    unfold githubReleaseStep
    rw [hv, he]
    simp [hv2, hs]
  · intro hs
    unfold githubReleaseStep
    rw [hv, he]
    simp [hv2, hs]

/-- C2 witness: the duplicate-tag conflict at a concrete loop state. -/
theorem c2_witness :
    isSkippableErr errDupTag = true ∧
    ((isSkippableErr errDupTag = true →
      githubReleaseStep ⟨true, [], []⟩ pkgDupTag =
        { allReleasesCreated := true, releases := [("packages/a", none)],
          comments := [] }) ∧
    (isSkippableErr errDupTag = false →
      githubReleaseStep ⟨true, [], []⟩ pkgDupTag =
        { allReleasesCreated := false
          comments := [failureComment "a"]
          releases := [("packages/a", none)] }) ∧
    ∀ rest : List RelPkg,
      (pkgDupTag :: rest).foldl githubReleaseStep ⟨true, [], []⟩ =
        rest.foldl githubReleaseStep (githubReleaseStep ⟨true, [], []⟩ pkgDupTag)) :=
  ⟨by decide,
    c2_amended_skip_or_fail ⟨true, [], []⟩ pkgDupTag "1.0.0" (by decide)
      (by decide) errDupTag (by decide)⟩

/-- C4: with a non-empty candidate list, the source pull request is
re-labelled from pending to released if and only if no candidate fell into
the generic-failure branch of the loop. -/
theorem c4_relabel_iff_all_created (pkgs : List RelPkg) (hne : pkgs ≠ []) :
    ((githubReleaseLoop pkgs).addedReleasedLabel = true ∧
     (githubReleaseLoop pkgs).removedPendingLabel = true) ↔
      ∀ p ∈ pkgs, genericFailure p = false := by
  have hflag : (githubReleaseLoop pkgs).addedReleasedLabel =
      (!pkgs.isEmpty && pkgs.all fun p => !genericFailure p) := by
    show (List.foldl githubReleaseStep ⟨!pkgs.isEmpty, [], []⟩ pkgs).allReleasesCreated =
      (!pkgs.isEmpty && pkgs.all fun p => !genericFailure p)
    rw [foldl_flag]
  have hflag2 : (githubReleaseLoop pkgs).removedPendingLabel =
      (!pkgs.isEmpty && pkgs.all fun p => !genericFailure p) := by
    show (List.foldl githubReleaseStep ⟨!pkgs.isEmpty, [], []⟩ pkgs).allReleasesCreated =
      (!pkgs.isEmpty && pkgs.all fun p => !genericFailure p)
    rw [foldl_flag]
  rw [hflag, hflag2]
  have hne2 : pkgs.isEmpty = false := by
    cases pkgs with
    | nil => exact absurd rfl hne
    | cons a l => rfl
  rw [hne2]
  simp [List.all_eq_true]

/-- C4 witness: one successful candidate and one generic failure. -/
theorem c4_witness :
    ([pkgOk] ≠ ([] : List RelPkg) ∧
      (((githubReleaseLoop [pkgOk]).addedReleasedLabel = true ∧
        (githubReleaseLoop [pkgOk]).removedPendingLabel = true) ↔
        ∀ p ∈ [pkgOk], genericFailure p = false)) ∧
    (githubReleaseLoop [pkgOk, pkgFail]).addedReleasedLabel = false :=
  ⟨⟨by decide, c4_relabel_iff_all_created [pkgOk] (by decide)⟩, by decide⟩

/-- C10: when the candidate list is empty, the loop returns an empty release
record and performs no relabelling — `allReleasesCreated` is initialised to
`!!packages.length`, which is false for an empty list, so the released label
is not added and the pending label is not removed. -/
theorem c10_empty_candidates_no_relabel :
    githubReleaseLoop [] =
      ⟨false, [], [], false, false⟩ := by
  decide

/-- C9: if the manifest document contains any non-string value, `validate`
returns false, and both `pullRequest` and `githubRelease` return immediately
with no remote mutation, whatever the remainder of either method would have
done. -/
theorem c9_nonstring_manifest_no_mutation (config : Option JsonVal)
    (fields : List (String × JsonVal)) (man : Option JsonVal)
    (hman : man = some (.obj fields))
    (k : String) (v : JsonVal) (hkv : (k, v) ∈ fields)
    (hv : ∀ s, v ≠ .str s) :
    validateM config man = false ∧
    (∀ kont, pullRequestRun config man kont = (none, [])) ∧
    (∀ kont, githubReleaseRun config man kont = (none, [])) := by
  subst hman
  have hstr : isStrVal v = false := by
    cases v with
    | str s => exact absurd rfl (hv s)
    | num n => rfl
    | jbool b => rfl
    | jnull => rfl
    | arr e => rfl
    | obj f => rfl
  have hall : (fields.all fun f => isStrVal f.2) = false := by
    cases hA : fields.all fun f => isStrVal f.2 with
    | false => rfl
    | true =>
      have h2 := List.all_eq_true.mp hA (k, v) hkv
      rw [hstr] at h2
      cases h2
  have hvm : validManifestB (some (.obj fields)) = false := by
    show (fields.all fun f => isStrVal f.2) = false
    exact hall
  have hM : validateM config (some (.obj fields)) = false := by
    unfold validateM
    rw [hvm, Bool.and_false]
  refine ⟨hM, fun kont => ?_, fun kont => ?_⟩
  · unfold pullRequestRun
    rw [hM]
    simp
  · unfold githubReleaseRun
    rw [hM]
    simp

/-- C9 witness: a manifest carrying the number 1 for `pkgs/p1`. -/
theorem c9_witness :
    (("pkgs/p1", JsonVal.num 1) ∈ c9ManFields) ∧
    (validateM c9Config c9Man = false ∧
     (∀ kont, pullRequestRun c9Config c9Man kont = (none, [])) ∧
     (∀ kont, githubReleaseRun c9Config c9Man kont = (none, []))) :=
  ⟨List.Mem.head _,
    c9_nonstring_manifest_no_mutation c9Config c9ManFields c9Man rfl
      "pkgs/p1" (JsonVal.num 1) (List.Mem.head _)
      (fun _ h => JsonVal.noConfusion h)⟩

theorem mem_setRecord_self (rel : List PackageReleaseData)
    (e : PackageReleaseData) : e ∈ setRecord rel e := by
  unfold setRecord
  by_cases h : (rel.any fun r => r.path == e.path) = true
  · rw [if_pos h]
    obtain ⟨r, hr, hrp⟩ := List.any_eq_true.mp h
    refine List.mem_map.mpr ⟨r, hr, ?_⟩
    rw [if_pos hrp]
  · rw [if_neg h]
    exact List.mem_append_right _ (List.Mem.head _)

theorem mem_setRecord_other (rel : List PackageReleaseData)
    (e x : PackageReleaseData) (hx : x ∈ rel) (hne : x.path ≠ e.path) :
    x ∈ setRecord rel e := by
  unfold setRecord
  by_cases h : (rel.any fun r => r.path == e.path) = true
  · rw [if_pos h]
    refine List.mem_map.mpr ⟨x, hx, ?_⟩
    rw [if_neg (by simp [hne])]
  · rw [if_neg h]
    exact List.mem_append_left _ hx

theorem gprMain_mem (commitsPerPath : String → List String)
    (mSha : List (String × String)) (pk : String)
    (hc : commitsPerPath pk ≠ []) :
    ∀ (packages : List String) (acc : List PackageReleaseData × List String),
      (pk ∈ packages ∨
        (⟨pk, commitsPerPath pk, mSha.lookup pk⟩ : PackageReleaseData) ∈ acc.1) →
      (⟨pk, commitsPerPath pk, mSha.lookup pk⟩ : PackageReleaseData) ∈
        (packages.foldl (gprStep commitsPerPath mSha) acc).1 := by
  have hcne : (commitsPerPath pk).isEmpty = false := by
    cases hcc : commitsPerPath pk with
    | nil => exact absurd hcc hc
    | cons a l => rfl
  intro packages
  induction packages with
  | nil =>
    intro acc h
    rcases h with h | h
    · cases h
    · exact h
  | cons p ps ih =>
    intro acc h
    rw [List.foldl_cons]
    by_cases hpk : p = pk
    · subst hpk
      apply ih
      right
      unfold gprStep
      rw [if_neg (by rw [hcne]; simp)]
      exact mem_setRecord_self _ _
    · apply ih
      rcases h with h | h
      · rcases List.mem_cons.mp h with h1 | h1
        · exact absurd h1.symm hpk
        · exact Or.inl h1
      · right
        unfold gprStep
        by_cases he : (commitsPerPath p).isEmpty = true
        · rw [if_pos he]
          exact h
        · rw [if_neg he]
          exact mem_setRecord_other _ _ _ h fun hh => hpk (Eq.symm hh)

theorem gprMain_missing (commitsPerPath : String → List String)
    (mSha : List (String × String)) (pk : String)
    (hc : commitsPerPath pk ≠ [])
    (hfal : versionFalsy (mSha.lookup pk) = true) :
    ∀ (packages : List String) (acc : List PackageReleaseData × List String),
      (pk ∈ packages ∨ pk ∈ acc.2) →
      pk ∈ (packages.foldl (gprStep commitsPerPath mSha) acc).2 := by
  have hcne : (commitsPerPath pk).isEmpty = false := by
    cases hcc : commitsPerPath pk with
    | nil => exact absurd hcc hc
    | cons a l => rfl
  intro packages
  induction packages with
  | nil =>
    intro acc h
    rcases h with h | h
    · cases h
    · exact h
  | cons p ps ih =>
    intro acc h
    rw [List.foldl_cons]
    by_cases hpk : p = pk
    · subst hpk
      apply ih
      right
      unfold gprStep
      rw [if_neg (by rw [hcne]; simp), if_pos hfal]
      exact List.mem_append_right _ (List.Mem.head _)
    · apply ih
      rcases h with h | h
      · rcases List.mem_cons.mp h with h1 | h1
        · exact absurd h1.symm hpk
        · exact Or.inl h1
      · right
        unfold gprStep
        by_cases he : (commitsPerPath p).isEmpty = true
        · rw [if_pos he]
          exact h
        · rw [if_neg he]
          by_cases hf : versionFalsy (mSha.lookup p) = true
          · rw [if_pos hf]
            exact List.mem_append_left _ h
          · rw [if_neg hf]
            exact h

theorem gprFix_keeps (mTip : List (String × String)) (pk : String)
    (C : List String) :
    ∀ (missing : List String) (rel : List PackageReleaseData),
      (∃ e ∈ rel, e.path = pk ∧ e.commits = C ∧
        e.lastVersion = mTip.lookup pk) →
      ∃ e ∈ missing.foldl (gprFixStep mTip) rel,
        e.path = pk ∧ e.commits = C ∧ e.lastVersion = mTip.lookup pk := by
  intro missing
  induction missing with
  | nil => exact fun rel h => h
  | cons m ms ih =>
    intro rel h
    rw [List.foldl_cons]
    apply ih
    obtain ⟨e, he, hp, hcm, hlv⟩ := h
    by_cases hem : (e.path == m) = true
    · have hm : m = pk := (beq_iff_eq.mp hem).symm.trans hp
      refine ⟨{ e with lastVersion := mTip.lookup m },
        List.mem_map.mpr ⟨e, he, by rw [if_pos hem]⟩, hp, hcm, ?_⟩
      rw [hm]
    · exact ⟨e, List.mem_map.mpr ⟨e, he, by rw [if_neg hem]⟩,
        hp, hcm, hlv⟩

theorem gprFix_sets (mTip : List (String × String)) (pk : String)
    (C : List String) :
    ∀ (missing : List String) (rel : List PackageReleaseData),
      pk ∈ missing →
      (∃ e ∈ rel, e.path = pk ∧ e.commits = C) →
      ∃ e ∈ missing.foldl (gprFixStep mTip) rel,
        e.path = pk ∧ e.commits = C ∧ e.lastVersion = mTip.lookup pk := by
  intro missing
  induction missing with
  | nil =>
    intro rel h
    cases h
  | cons m ms ih =>
    intro rel hm hA
    rw [List.foldl_cons]
    by_cases hmpk : m = pk
    · subst hmpk
      apply gprFix_keeps
      obtain ⟨e, he, hp, hcm⟩ := hA
      refine ⟨{ e with lastVersion := mTip.lookup m }, ?_, hp, hcm, rfl⟩
      exact List.mem_map.mpr ⟨e, he, by rw [if_pos (beq_iff_eq.mpr hp)]⟩
    · rcases List.mem_cons.mp hm with h1 | h1
      · exact absurd h1.symm hmpk
      · apply ih _ h1
        obtain ⟨e, he, hp, hcm⟩ := hA
        by_cases hem : (e.path == m) = true
        · exact absurd ((beq_iff_eq.mp hem).symm.trans hp) hmpk
        · exact ⟨e, List.mem_map.mpr ⟨e, he, by rw [if_neg hem]⟩, hp, hcm⟩

/-- C5: a configured package with at least one attributable commit whose
path is absent from the manifest at the resolved reference is recorded as a
missing path, and its release entry's last version is re-resolved against
the manifest at the live tip and applied — left absent if the tip manifest
also lacks it — while the pass still produces the entry (the run is not
aborted). -/
theorem c5_missing_version_tip_fallback (packages : List String)
    (commitsPerPath : String → List String)
    (mSha mTip : List (String × String)) (pk : String)
    (hpk : pk ∈ packages) (hc : commitsPerPath pk ≠ [])
    (hmiss : mSha.lookup pk = none) :
    pk ∈ (gprMainPass packages commitsPerPath mSha).2 ∧
    ∃ e ∈ getPackagesToRelease packages commitsPerPath mSha mTip,
      e.path = pk ∧ e.commits = commitsPerPath pk ∧
      e.lastVersion = mTip.lookup pk := by
  have hfal : versionFalsy (mSha.lookup pk) = true := by rw [hmiss]; rfl
  have hmain := gprMain_mem commitsPerPath mSha pk hc packages ([], [])
    (Or.inl hpk)
  have hmiss2 := gprMain_missing commitsPerPath mSha pk hc hfal packages
    ([], []) (Or.inl hpk)
  refine ⟨hmiss2, ?_⟩
  exact gprFix_sets mTip pk (commitsPerPath pk) _ _ hmiss2 ⟨_, hmain, rfl, rfl⟩

/-- C5 witness: `pkgs/p1` has commits and no entry in the manifest at the
resolved reference; the tip manifest supplies `0.3.0`. -/
theorem c5_witness :
    c5Commits "pkgs/p1" ≠ [] ∧ c5MSha.lookup "pkgs/p1" = none ∧
    ("pkgs/p1" ∈ (gprMainPass c5Packages c5Commits c5MSha).2 ∧
     ∃ e ∈ getPackagesToRelease c5Packages c5Commits c5MSha c5MTip,
       e.path = "pkgs/p1" ∧ e.commits = c5Commits "pkgs/p1" ∧
       e.lastVersion = c5MTip.lookup "pkgs/p1") :=
  ⟨by decide, by decide,
    c5_missing_version_tip_fallback c5Packages c5Commits c5MSha c5MTip
      "pkgs/p1" (by decide) (by decide) (by decide)⟩

/-- C3 evaluation at the failing input: pkgB already has a pending file
change (content still holding `^1.1.1`), and the propagator computed a
rewritten descriptor holding `^1.1.2`; the merge step keeps the pending
file data object unchanged via the `??` fallback, so the rewritten
descriptor is discarded for that path — while a path with no pending entry
(pkgC) does get a synthesized entry with the new content and version, and
both new versions are recorded in the versions map. -/
theorem c3_pending_content_kept_eval :
    (∃ entry ∈ (updatePkgsWithPRData c3Parsed c3Pkgs c3Nmv c3AllUpdated).1,
      entry.config.path = "packages/pkgB" ∧
      entry.prData.changes.lookup "packages/pkgB/package.json" =
        some ⟨c3OldContent, "100644"⟩) ∧
    c3OldContent ≠ packageJsonStringify c3NewB ∧
    (∃ entry ∈ (updatePkgsWithPRData c3Parsed c3Pkgs c3Nmv c3AllUpdated).1,
      entry.config.path = "packages/pkgC" ∧
      entry.prData.changes.lookup "packages/pkgC/package.json" =
        some ⟨packageJsonStringify c3NewC, "100644"⟩ ∧
      entry.prData.version = "3.3.4") ∧
    (updatePkgsWithPRData c3Parsed c3Pkgs c3Nmv c3AllUpdated).2 =
      [("packages/pkgB", "2.3.0"), ("packages/pkgC", "3.3.4")] := by
  decide
